import Mathlib

/-!
Verification of the product-quantization codec and two-phase search core
of the sense-embeddings ingestion repository.

The development shallowly embeds the core of `src/ingestion/pq_trainer.py`
and `src/ingestion/search.py`:

* the bit-packed PQ code decoder `_decode_pq_codes`;
* the training-set preparation in `train_pq` (divisibility guard and
  noisy-duplicate augmentation);
* the query-time distance table `_build_distance_table`;
* the approximate scorer `pq_search`;
* the exact re-ranker `post_verify`.

Machine floats (`np.float32`) are modelled by exact rationals `ℚ`, numpy
arrays by Lean lists, and the PostgreSQL row stores by explicit list
parameters.  The numpy index sorts (`np.argsort`, and
`np.argpartition` followed by `np.argsort` of the selected block) have
unspecified order on tied scores; both are modelled by the stable
`List.insertionSort` on (identifier, score) pairs, which realises one
deterministic tie order and agrees with the source on every property
stated below (the selected multiset of scores, the ascending order, and
the pairing of identifiers with their scores).
-/

namespace PQ

/-! ## Bit-packed PQ codes (`pq_trainer._decode_pq_codes`)

A logical code is a list of `M` centroid indices, each in `[0, 2^nbits)`.
FAISS persists it as a bit-packed byte buffer.  The decoder below is the
shallow embedding of `_decode_pq_codes` (pq_trainer.py lines 128-159) for
one row; the packed buffer is modelled as the function sending a byte
index to the byte value stored there (`codes_packed[i, b]`).
-/

/-- Modelled from the spec: the bit-packing performed by FAISS
`pq.compute_codes` is not part of this repository's sources.  Per the
spec (§4.2), each of the `M` values occupies exactly `nbits` bits,
concatenated across subspaces with no inter-field padding,
least-significant-bit-first within each byte.  `packBits` is the whole
bit stream read as one natural number, subspace 0 in the lowest bits. -/
def packBits (nbits : Nat) : List Nat → Nat
  | [] => 0
  | v :: rest => v + 2 ^ nbits * packBits nbits rest

/-- Modelled from the spec: byte `b` of the packed representation is the
`b`-th least-significant byte of the bit stream `packBits`. -/
def packedByte (nbits : Nat) (code : List Nat) (b : Nat) : Nat :=
  packBits nbits code / 2 ^ (8 * b) % 256

/-- One iteration of the inner loop of `_decode_pq_codes`
(pq_trainer.py lines 137-157): extract the `nbits`-wide field of
subspace `j`, whose cumulative bit offset is `j * nbits`, from the
packed byte buffer `bytes`. -/
def decodeOne (bytes : Nat → Nat) (nbits j : Nat) : Nat :=
  let bit_offset := j * nbits
  let byte_idx := bit_offset / 8
  let bit_in_byte := bit_offset % 8
  if bit_in_byte + nbits ≤ 8 then
    let mask := (1 <<< nbits) - 1
    (bytes byte_idx >>> bit_in_byte) &&& mask
  else
    let bits_from_first := 8 - bit_in_byte
    let bits_from_second := nbits - bits_from_first
    let code_low := bytes byte_idx >>> bit_in_byte
    let code_high := bytes (byte_idx + 1) &&& ((1 <<< bits_from_second) - 1)
    code_low ||| (code_high <<< bits_from_first)

/-- Shallow embedding of `_decode_pq_codes` (pq_trainer.py lines
124-159) for a single row: for `nbits = 8` the packed bytes are returned
unchanged (one byte per subspace), otherwise each of the `m` fields is
extracted by `decodeOne`. -/
def decode_pq_codes (bytes : Nat → Nat) (m nbits : Nat) : List Nat :=
  if nbits = 8 then
    (List.range m).map bytes
  else
    (List.range m).map (decodeOne bytes nbits)

/-! ### Bit-extraction lemmas -/

/-- Extracting the `j`-th `nbits`-wide field of the packed bit stream
recovers the `j`-th code value. -/
theorem packBits_extract (nbits : Nat) :
    ∀ (code : List Nat) (j : Nat), (∀ v ∈ code, v < 2 ^ nbits) →
      j < code.length →
      packBits nbits code / 2 ^ (j * nbits) % 2 ^ nbits = code.getD j 0 := by
  intro code
  induction code with
  | nil => intro j _ hj; simp at hj
  | cons v rest ih =>
      intro j hv hj
      cases j with
      | zero =>
          simp only [packBits, Nat.zero_mul, pow_zero, Nat.div_one,
            List.getD_cons_zero]
          rw [Nat.add_mul_mod_self_left]
          exact Nat.mod_eq_of_lt (hv v (List.mem_cons_self v rest))
      | succ j =>
          have hstep : packBits nbits (v :: rest) / 2 ^ ((j + 1) * nbits)
              = packBits nbits rest / 2 ^ (j * nbits) := by
            have h2 : (0:Nat) < 2 ^ nbits := Nat.pos_pow_of_pos nbits (by omega)
            have : (j + 1) * nbits = nbits + j * nbits := by ring
            rw [this, pow_add, ← Nat.div_div_eq_div_mul]
            congr 1
            simp only [packBits]
            rw [Nat.add_mul_div_left _ _ h2,
              Nat.div_eq_of_lt (hv v (List.mem_cons_self v rest))]
            omega
          rw [hstep, List.getD_cons_succ]
          exact ih j (fun w hw => hv w (List.mem_cons_of_mem v hw))
            (by simpa using hj)

/-- The `testBit` view of a byte of the packed stream. -/
theorem testBit_packedStreamByte (N b s : Nat) :
    (N / 2 ^ (8 * b) % 256).testBit s
      = (decide (s < 8) && N.testBit (8 * b + s)) := by
  have h256 : (256 : Nat) = 2 ^ 8 := by norm_num
  rw [h256, ← Nat.shiftRight_eq_div_pow, Nat.testBit_mod_two_pow,
    Nat.testBit_shiftRight]

/-- `decodeOne`, reading the bytes of the packed bit stream of `N`,
extracts exactly the `nbits`-wide field of `N` at bit offset
`j * nbits` — both in the single-byte case and in the case where the
field straddles a byte boundary. -/
theorem decodeOne_packedStream (N nbits j : Nat) (h1 : 1 ≤ nbits)
    (h8 : nbits ≤ 8) :
    decodeOne (fun b => N / 2 ^ (8 * b) % 256) nbits j
      = N / 2 ^ (j * nbits) % 2 ^ nbits := by
  unfold decodeOne
  set t := j * nbits with ht
  have htqr : 8 * (t / 8) + t % 8 = t := Nat.div_add_mod t 8
  have hr8 : t % 8 < 8 := Nat.mod_lt _ (by omega)
  rw [← Nat.shiftRight_eq_div_pow N t]
  by_cases hcase : t % 8 + nbits ≤ 8
  · rw [if_pos hcase]
    apply Nat.eq_of_testBit_eq
    intro i
    simp only [Nat.one_shiftLeft, Nat.testBit_and, Nat.testBit_shiftRight,
      Nat.testBit_two_pow_sub_one, testBit_packedStreamByte,
      Nat.testBit_mod_two_pow]
    by_cases hi : i < nbits
    · have hlt : t % 8 + i < 8 := by omega
      have hidx : 8 * (t / 8) + (t % 8 + i) = t + i := by omega
      simp [hi, hlt, hidx]
    · simp [hi]
  · rw [if_neg hcase]
    apply Nat.eq_of_testBit_eq
    intro i
    simp only [Nat.one_shiftLeft, Nat.testBit_or, Nat.testBit_and,
      Nat.testBit_shiftRight, Nat.testBit_shiftLeft,
      Nat.testBit_two_pow_sub_one, testBit_packedStreamByte,
      Nat.testBit_mod_two_pow]
    by_cases hi1 : i < 8 - t % 8
    · have hlt : t % 8 + i < 8 := by omega
      have hidx : 8 * (t / 8) + (t % 8 + i) = t + i := by omega
      have hi : i < nbits := by omega
      have hdead : ¬ (i ≥ 8 - t % 8) := by omega
      simp [hlt, hidx, hi, hdead]
    · by_cases hi2 : i < nbits
      · have hdead : ¬ (t % 8 + i < 8) := by omega
        have hup : i ≥ 8 - t % 8 := by omega
        have hmask : i - (8 - t % 8) < nbits - (8 - t % 8) := by omega
        have hin8 : i - (8 - t % 8) < 8 := by omega
        have hidx : 8 * (t / 8 + 1) + (i - (8 - t % 8)) = t + i := by omega
        simp [hdead, hup, hmask, hin8, hidx, hi2]
      · have hdead1 : ¬ (t % 8 + i < 8) := by omega
        have hdead2 : ¬ (i - (8 - t % 8) < nbits - (8 - t % 8)) := by omega
        simp [hdead1, hdead2, hi2]

/-- C1: for every `nbits` in `{1,...,8}`, every subspace count `M` and
every logical code of `M` values each in `[0, 2^nbits)`, decoding the
bit-packed byte representation (each value occupying exactly `nbits`
bits, concatenated with no inter-field padding, least-significant-bit
first) recovers the original code exactly; this covers `nbits = 8`
(packing is a no-op) and the byte-straddling split-read case. -/
theorem decode_pack_roundtrip (nbits : Nat) (code : List Nat)
    (h1 : 1 ≤ nbits) (h8 : nbits ≤ 8) (hv : ∀ v ∈ code, v < 2 ^ nbits) :
    decode_pq_codes (packedByte nbits code) code.length nbits = code := by
  have hbytes : packedByte nbits code
      = fun b => packBits nbits code / 2 ^ (8 * b) % 256 := rfl
  have hext : ∀ (f : Nat → Nat), (∀ i, i < code.length → f i = code.getD i 0) →
      (List.range code.length).map f = code := by
    intro f hf
    apply List.ext_getElem
    · simp
    · intro i hi1 hi2
      simp only [List.getElem_map, List.getElem_range]
      rw [hf i (by simpa using hi1), List.getD_eq_getElem code 0 hi2]
  unfold decode_pq_codes
  by_cases hcase : nbits = 8
  · rw [if_pos hcase]
    apply hext
    intro i hi
    have h256 : (256 : Nat) = 2 ^ nbits := by rw [hcase]; norm_num
    have hmul : 8 * i = i * nbits := by rw [hcase]; ring
    show packBits nbits code / 2 ^ (8 * i) % 256 = code.getD i 0
    rw [h256, hmul]
    exact packBits_extract nbits code i hv hi
  · rw [if_neg hcase]
    apply hext
    intro i hi
    rw [hbytes, decodeOne_packedStream _ nbits i h1 h8]
    exact packBits_extract nbits code i hv hi

theorem decode_pack_roundtrip_witness :
    (1 ≤ 3 ∧ 3 ≤ 8 ∧ ([5, 0, 7, 1, 2].all (fun v => v < 2 ^ 3)) = true) ∧
      decode_pq_codes (packedByte 3 [5, 0, 7, 1, 2]) 5 3 = [5, 0, 7, 1, 2] :=
  ⟨by decide, decode_pack_roundtrip 3 [5, 0, 7, 1, 2] (by decide) (by decide)
    (by decide)⟩

/-- Every field extracted by `decodeOne` from genuine bytes (values
below 256) fits in `nbits` bits. -/
theorem decodeOne_lt (bytes : Nat → Nat) (nbits j : Nat)
    (hb : ∀ b, bytes b < 256) :
    decodeOne bytes nbits j < 2 ^ nbits := by
  have hpow : (0:Nat) < 2 ^ nbits := Nat.pos_pow_of_pos nbits (by omega)
  simp only [decodeOne]
  split
  next hcase =>
    rw [Nat.one_shiftLeft]
    exact Nat.and_lt_two_pow _ (by omega)
  next hcase =>
    set r := j * nbits % 8 with hrdef
    have hr : r < 8 := Nat.mod_lt _ (by omega)
    rw [Nat.one_shiftLeft]
    apply Nat.or_lt_two_pow
    · have hlow : bytes (j * nbits / 8) >>> r < 2 ^ (8 - r) := by
        rw [Nat.shiftRight_eq_div_pow]
        apply Nat.div_lt_of_lt_mul
        calc bytes (j * nbits / 8) < 256 := hb _
          _ ≤ 2 ^ r * 2 ^ (8 - r) := by
              rw [← pow_add]
              have h88 : r + (8 - r) = 8 := by omega
              rw [h88]; norm_num
      exact lt_of_lt_of_le hlow (Nat.pow_le_pow_right (by norm_num) (by omega))
    · have hsplit : (0:Nat) < 2 ^ (nbits - (8 - r)) :=
        Nat.pos_pow_of_pos _ (by omega)
      have hhigh : bytes (j * nbits / 8 + 1) &&& (2 ^ (nbits - (8 - r)) - 1)
          < 2 ^ (nbits - (8 - r)) := Nat.and_lt_two_pow _ (by omega)
      rw [Nat.shiftLeft_eq]
      calc (bytes (j * nbits / 8 + 1) &&& (2 ^ (nbits - (8 - r)) - 1))
            * 2 ^ (8 - r)
          < 2 ^ (nbits - (8 - r)) * 2 ^ (8 - r) :=
            mul_lt_mul_of_pos_right hhigh (Nat.pos_pow_of_pos _ (by omega))
        _ = 2 ^ nbits := by rw [← pow_add]; congr 1; omega

/-- C9: every code produced by `_decode_pq_codes` from genuine bytes
has all of its values in `[0, 2^nbits)`: for `nbits < 8` each field is
masked to `nbits` bits (also in the byte-straddling case), and for
`nbits = 8` each value is one byte, so no decoded index exceeds
`2^nbits - 1`. -/
theorem decode_codes_lt (bytes : Nat → Nat) (m nbits : Nat)
    (hb : ∀ b, bytes b < 256) :
    ∀ v ∈ decode_pq_codes bytes m nbits, v < 2 ^ nbits := by
  intro v hv
  unfold decode_pq_codes at hv
  by_cases hcase : nbits = 8
  · rw [if_pos hcase] at hv
    obtain ⟨b, _, rfl⟩ := List.mem_map.mp hv
    calc bytes b < 256 := hb b
      _ = 2 ^ nbits := by rw [hcase]; norm_num
  · rw [if_neg hcase] at hv
    obtain ⟨j, _, rfl⟩ := List.mem_map.mp hv
    exact decodeOne_lt bytes nbits j hb

theorem decode_codes_lt_witness :
    ((fun _ : Nat => 200) 0 < 256) ∧
      ((decode_pq_codes (fun _ => 200) 4 3).all (fun v => v < 2 ^ 3)) = true :=
  ⟨by norm_num, by
    have h := decode_codes_lt (fun _ => 200) 4 3 (fun b => by norm_num)
    rw [List.all_eq_true]
    intro v hv
    simpa using h v hv⟩

/-! ## Rational-vector model of the query pipeline -/

/-- Sum of squared coordinate differences, `np.sum((xs - ys) ** 2)`. -/
def sqDist (xs ys : List ℚ) : ℚ :=
  (List.zipWith (fun a b => (a - b) ^ 2) xs ys).sum

/-- Shape accessors of a `[M][K][Dsub]` codebook modelled as nested
lists (`codebook.shape` in numpy). -/
def cbM (cb : List (List (List ℚ))) : Nat := cb.length

/-- Number of centroids per subspace (`codebook.shape[1]`). -/
def cbK (cb : List (List (List ℚ))) : Nat := (cb.getD 0 []).length

/-- Subspace dimensionality (`codebook.shape[2]`). -/
def cbDsub (cb : List (List (List ℚ))) : Nat :=
  ((cb.getD 0 []).getD 0 []).length

/-- Shallow embedding of `_build_distance_table` (search.py lines
25-53): entry `(j, c)` is the squared distance between the query's
`j`-th subspace slice and centroid `c` of subspace `j`.  The
`assert len(query_vec) == dim` is modelled by returning `none`. -/
def build_distance_table (query_vec : List ℚ) (cb : List (List (List ℚ))) :
    Option (List (List ℚ)) :=
  let m := cbM cb
  let d_sub := cbDsub cb
  let dim := m * d_sub
  if query_vec.length = dim then
    some ((List.range m).map fun j =>
      let sub_q := (query_vec.drop (j * d_sub)).take d_sub
      (cb.getD j []).map fun cent => sqDist cent sub_q)
  else none

/-! ## Training-set preparation (`pq_trainer.train_pq`) -/

/-- `vectors[:train_size] if train_size else vectors` (pq_trainer.py
line 49); `train_size = 0` and `None` are falsy in Python and keep all
vectors. -/
def sliceTrainVecs (vectors : List (List ℚ)) : Option Nat → List (List ℚ)
  | none => vectors
  | some t => if t = 0 then vectors else vectors.take t

/-- Population variance of all entries of a matrix; `np.std` is its
square root. -/
def npVariance (vs : List (List ℚ)) : ℚ :=
  let xs := vs.flatten
  let mean := xs.sum / xs.length
  (xs.map (fun x => (x - mean) ^ 2)).sum / xs.length

/-- The scarcity augmentation of `train_pq` (pq_trainer.py lines
61-66): `np.tile(train_vecs, (reps, 1))[:k]` places `train_vecs[i % n]`
in row `i` for `i < k`, after which noise is added to every entry.  The
external random draws `np.random.randn` are the parameter `randn`, and
`noise_scale` (`np.std(train_vecs) * 0.001`, irrational in general) is
a parameter, constrained in the theorems by `0 ≤ noise_scale` and
`noise_scale ^ 2 = npVariance train_vecs / 1000000`. -/
def augmentTrainVecs (train_vecs : List (List ℚ)) (k : Nat)
    (noise_scale : ℚ) (randn : Nat → Nat → ℚ) : List (List ℚ) :=
  let n := train_vecs.length
  (List.range k).map fun i =>
    let row := train_vecs.getD (i % n) []
    (List.range row.length).map fun d => row.getD d 0 + randn i d * noise_scale

/-- Shallow embedding of the training-set preparation of `train_pq`
(pq_trainer.py lines 45-66): the divisibility assert (modelled as
`none`), the optional training slice, and the scarcity augmentation
when fewer than `2 ^ nbits` training vectors remain.  The returned
matrix is the one handed to the external `faiss.ProductQuantizer.train`. -/
def train_pq (vectors : List (List ℚ)) (dim m_subspaces nbits : Nat)
    (train_size : Option Nat) (noise_scale : ℚ) (randn : Nat → Nat → ℚ) :
    Option (List (List ℚ)) :=
  if dim % m_subspaces = 0 then
    let train_vecs := sliceTrainVecs vectors train_size
    let k := 2 ^ nbits
    if train_vecs.length < k then
      some (augmentTrainVecs train_vecs k noise_scale randn)
    else
      some train_vecs
  else
    none

/-! ## Approximate scorer (`search.pq_search`) -/

/-- The scoring loop of `pq_search` (search.py lines 102-107): the
approximate distance of one stored code is the sum over subspaces `j`
of `dist_table[j, code_vec[j]]`. -/
def approxScore (dist_table : List (List ℚ)) (code_vec : List Nat) : ℚ :=
  (List.range dist_table.length).foldl
    (fun total j =>
      total + (dist_table.getD j []).getD (code_vec.getD j 0) 0) 0

/-- Shallow embedding of `pq_search` (search.py lines 98-125) given the
distance table and the `(id, code_vector)` rows fetched from
`pq_quantization`: every row is scored by `approxScore`, and the
`min top_n (#rows)` lowest-scoring rows are returned sorted ascending
by score, as the parallel lists `(candidate_ids, approx_dists)` of the
source.  Both source branches (full `np.argsort`; `np.argpartition`
followed by `np.argsort` of the selected block) return the `n` smallest
indices sorted ascending with unspecified tie order; the stable
`insertionSort` on (id, score) pairs realises one deterministic tie
order. -/
def pq_search (dist_table : List (List ℚ)) (rows : List (Int × List Nat))
    (top_n : Nat) : List Int × List ℚ :=
  let scored := rows.map fun r => (r.1, approxScore dist_table r.2)
  let sorted := scored.insertionSort (fun a b => a.2 ≤ b.2)
  let n := min top_n rows.length
  ((sorted.take n).map Prod.fst, (sorted.take n).map Prod.snd)

/-! ## Exact re-ranker (`search.post_verify`) -/

/-- One row of the raw-vector table: `(id, word, sense_id, vector)`. -/
structure RawRow where
  id : Int
  word : String
  sense_id : Int
  vec : List ℚ
deriving DecidableEq

/-- One entry of `post_verify`'s result list:
`{id, word, sense_id, distance}`. -/
structure SearchResult where
  id : Int
  word : String
  sense_id : Int
  distance : ℚ
deriving DecidableEq

/-- Shallow embedding of `post_verify` (search.py lines 132-203).  The
fetch `SELECT id, word, sense_id, vector FROM raw WHERE id IN (...)` is
modelled as filtering the raw table `db` for rows whose id is among
`candidate_ids`; each fetched row is scored by the exact squared
Euclidean distance to the query; `results.sort` (Python's stable sort)
is `insertionSort`; the first `final_k` results are returned. -/
def post_verify (query_vec : List ℚ) (candidate_ids : List Int)
    (db : List RawRow) (final_k : Nat) : List SearchResult :=
  if candidate_ids = [] then []
  else
    let rows := db.filter fun r => decide (r.id ∈ candidate_ids)
    let results := rows.map fun r =>
      ⟨r.id, r.word, r.sense_id, sqDist query_vec r.vec⟩
    (results.insertionSort (fun a b => a.distance ≤ b.distance)).take final_k

/-! ## C7: configuration errors are fatal guards -/

/-- C7: `train_pq` fails (the `assert dim % m_subspaces == 0`, before
any training is attempted) whenever the dimension is not divisible by
the subspace count, and `_build_distance_table` fails (the
`assert len(query_vec) == dim`) whenever the query length differs from
`M * Dsub`. -/
theorem config_errors_fatal :
    (∀ (vectors : List (List ℚ)) (dim m nbits : Nat) (ts : Option Nat)
        (ns : ℚ) (randn : Nat → Nat → ℚ), dim % m ≠ 0 →
        train_pq vectors dim m nbits ts ns randn = none) ∧
    (∀ (q : List ℚ) (cb : List (List (List ℚ))),
        q.length ≠ cbM cb * cbDsub cb → build_distance_table q cb = none) := by
  constructor
  · intro vectors dim m nbits ts ns randn h
    unfold train_pq
    rw [if_neg h]
  · intro q cb h
    unfold build_distance_table
    rw [if_neg h]

theorem config_errors_fatal_witness :
    (3 % 2 ≠ 0 ∧
      train_pq [[(1:ℚ), 2, 3]] 3 2 4 none 0 (fun _ _ => 0) = none) ∧
    (([(1:ℚ), 2, 3].length ≠ cbM [[[(1:ℚ), 2], [0, 0]], [[3, 4], [9, 9]]]
        * cbDsub [[[(1:ℚ), 2], [0, 0]], [[3, 4], [9, 9]]]) ∧
      build_distance_table [(1:ℚ), 2, 3]
        [[[(1:ℚ), 2], [0, 0]], [[3, 4], [9, 9]]] = none) :=
  ⟨⟨by decide, config_errors_fatal.1 [[(1:ℚ), 2, 3]] 3 2 4 none 0
      (fun _ _ => 0) (by decide)⟩,
   ⟨by decide, config_errors_fatal.2 [(1:ℚ), 2, 3]
      [[[(1:ℚ), 2], [0, 0]], [[3, 4], [9, 9]]] (by decide)⟩⟩

/-! ## C2: distance-table correctness -/

/-- `sqDist` as an indexed sum of squared coordinate differences. -/
theorem sqDist_eq_sum (xs : List ℚ) :
    ∀ ys : List ℚ, ys.length = xs.length →
      sqDist xs ys
        = ∑ d ∈ Finset.range xs.length, (xs.getD d 0 - ys.getD d 0) ^ 2 := by
  induction xs with
  | nil => intro ys h; simp [sqDist]
  | cons x xs ih =>
      intro ys h
      cases ys with
      | nil => simp at h
      | cons y ys =>
          have hlen : ys.length = xs.length := by simpa using h
          simp only [sqDist, List.zipWith_cons_cons, List.sum_cons,
            List.length_cons]
          rw [Finset.sum_range_succ']
          simp only [List.getD_cons_succ, List.getD_cons_zero]
          have hxs := ih ys hlen
          rw [sqDist] at hxs
          rw [hxs]
          ring

/-- C2: when `build_distance_table` succeeds on a rectangular
`[M][K][Dsub]` codebook, entry `(j, c)` of the table is the squared
Euclidean distance between the query's `j`-th subspace slice (elements
`j*Dsub` through `(j+1)*Dsub - 1`) and centroid `c` of subspace `j`;
consequently, if that slice coincides with the centroid, the entry is
zero. -/
theorem build_distance_table_correct (q : List ℚ)
    (cb : List (List (List ℚ))) (table : List (List ℚ))
    (hk : ∀ row ∈ cb, row.length = cbK cb)
    (hd : ∀ row ∈ cb, ∀ cent ∈ row, cent.length = cbDsub cb)
    (htab : build_distance_table q cb = some table) :
    ∀ j < cbM cb, ∀ c < cbK cb,
      ((table.getD j []).getD c 0
        = ∑ d ∈ Finset.range (cbDsub cb),
            (((cb.getD j []).getD c []).getD d 0
              - q.getD (j * cbDsub cb + d) 0) ^ 2) ∧
      ((∀ d < cbDsub cb,
          ((cb.getD j []).getD c []).getD d 0 = q.getD (j * cbDsub cb + d) 0)
        → (table.getD j []).getD c 0 = 0) := by
  intro j hj c hc
  unfold build_distance_table at htab
  by_cases hq : q.length = cbM cb * cbDsub cb
  swap
  · rw [if_neg hq] at htab; exact absurd htab (by simp)
  rw [if_pos hq, Option.some_inj] at htab
  subst htab
  set m := cbM cb with hm
  set d_sub := cbDsub cb with hds
  -- identify row `j` of the table
  have hjm : j < (List.range m).length := by simpa using hj
  have hrow : ((List.range m).map fun j =>
      (cb.getD j []).map fun cent =>
        sqDist cent ((q.drop (j * d_sub)).take d_sub)).getD j []
      = (cb.getD j []).map fun cent =>
          sqDist cent ((q.drop (j * d_sub)).take d_sub) := by
    rw [List.getD_eq_getElem _ _ (by simpa using hj), List.getElem_map,
      List.getElem_range]
  rw [hrow]
  -- identify entry `c` of that row
  have hcbj : (cb.getD j []).length = cbK cb := by
    have hjlen : j < cb.length := hj
    have : cb.getD j [] ∈ cb := by
      rw [List.getD_eq_getElem _ _ hjlen]; exact List.getElem_mem hjlen
    exact hk _ this
  have hcc : c < (cb.getD j []).length := by rw [hcbj]; exact hc
  have hentry : ((cb.getD j []).map fun cent =>
      sqDist cent ((q.drop (j * d_sub)).take d_sub)).getD c 0
      = sqDist ((cb.getD j []).getD c [])
          ((q.drop (j * d_sub)).take d_sub) := by
    rw [List.getD_eq_getElem _ _ (by simpa using hcc), List.getElem_map,
      List.getD_eq_getElem _ _ hcc]
  rw [hentry]
  -- the slice has length `d_sub` and indexes into `q` at offset `j*d_sub`
  have hjlen : j < cb.length := hj
  have hmem1 : cb.getD j [] ∈ cb := by
    rw [List.getD_eq_getElem _ _ hjlen]; exact List.getElem_mem hjlen
  have hmem2 : (cb.getD j []).getD c [] ∈ cb.getD j [] := by
    rw [List.getD_eq_getElem _ _ hcc]; exact List.getElem_mem hcc
  have hcentlen : ((cb.getD j []).getD c []).length = d_sub :=
    hd _ hmem1 _ hmem2
  have hslicelen : ((q.drop (j * d_sub)).take d_sub).length
      = ((cb.getD j []).getD c []).length := by
    rw [hcentlen, List.length_take, List.length_drop, hq]
    have : j * d_sub + d_sub ≤ m * d_sub := by
      have : j + 1 ≤ m := hj
      calc j * d_sub + d_sub = (j + 1) * d_sub := by ring
        _ ≤ m * d_sub := Nat.mul_le_mul_right _ this
    omega
  have hsliceidx : ∀ d < d_sub,
      ((q.drop (j * d_sub)).take d_sub).getD d 0
        = q.getD (j * d_sub + d) 0 := by
    intro d hdlt
    have hqlen : j * d_sub + d < q.length := by
      rw [hq]
      have hj1 : j + 1 ≤ m := hj
      calc j * d_sub + d < (j + 1) * d_sub := by
            have := hdlt; nlinarith
        _ ≤ m * d_sub := Nat.mul_le_mul_right _ hj1
    have hdtake : d < ((q.drop (j * d_sub)).take d_sub).length := by
      rw [List.length_take, List.length_drop]
      omega
    rw [List.getD_eq_getElem _ _ hdtake, List.getElem_take,
      List.getElem_drop, List.getD_eq_getElem _ _ hqlen]
  constructor
  · rw [sqDist_eq_sum _ _ hslicelen, hcentlen]
    apply Finset.sum_congr rfl
    intro d hd2
    rw [hsliceidx d (Finset.mem_range.mp hd2)]
  · intro hmatch
    rw [sqDist_eq_sum _ _ hslicelen, hcentlen]
    apply Finset.sum_eq_zero
    intro d hd2
    rw [hsliceidx d (Finset.mem_range.mp hd2),
      hmatch d (Finset.mem_range.mp hd2)]
    ring

theorem build_distance_table_correct_witness :
    (([[(0:ℚ), 5], [0, 61]] : List (List ℚ)).getD 0 []).getD 0 0 = 0 := by
  have h := build_distance_table_correct [1, 2, 3, 4]
    [[[(1:ℚ), 2], [0, 0]], [[3, 4], [9, 9]]] [[0, 5], [0, 61]]
    (by decide) (by decide)
    (by norm_num [build_distance_table, cbM, cbDsub, sqDist, List.range_succ])
  refine (h 0 (by decide) 0 (by decide)).2 ?_
  intro d hd
  have hd2 : d < 2 := by simpa [cbDsub] using hd
  interval_cases d <;> norm_num

/-! ## C6: scarcity augmentation in `train_pq` -/

/-- The claim that the augmented training set never contains exact
duplicates fails: when the training slice has zero variance (here a
single constant vector), `np.std` is `0`, so `noise_scale` is `0` and
every replica equals the original regardless of the random draws (here
all draws are `1`). -/
theorem train_pq_augment_cex :
    npVariance [[(1:ℚ), 1]] = 0 ∧
    train_pq [[(1:ℚ), 1]] 2 1 1 none 0 (fun _ _ => 1)
      = some [[1, 1], [1, 1]] ∧
    ¬ ([[(1:ℚ), 1], [1, 1]] : List (List ℚ)).Nodup := by
  refine ⟨by norm_num [npVariance], ?_, by simp⟩
  norm_num [train_pq, sliceTrainVecs, augmentTrainVecs, List.range_succ]

/-- C6 (amended): when the training slice has fewer than `K = 2^nbits`
vectors, `train_pq` recovers locally (returns a training set instead of
failing): the result has exactly `K` rows — hence at least `K` — where
row `i` is the cyclic replica `train_vecs[i % n]` with noise
`randn i d * noise_scale` added to every coordinate, `noise_scale`
being `np.std(train_vecs) * 0.001`.  No duplicate-freeness is
guaranteed: with zero variance the noise vanishes (see the
counterexample). -/
theorem train_pq_augment (vectors : List (List ℚ)) (dim m nbits : Nat)
    (ts : Option Nat) (ns : ℚ) (randn : Nat → Nat → ℚ)
    (hdiv : dim % m = 0)
    (hscarce : (sliceTrainVecs vectors ts).length < 2 ^ nbits) :
    ∃ out, train_pq vectors dim m nbits ts ns randn = some out ∧
      out.length = 2 ^ nbits ∧
      ∀ i < 2 ^ nbits,
        let row := (sliceTrainVecs vectors ts).getD
          (i % (sliceTrainVecs vectors ts).length) []
        (out.getD i []).length = row.length ∧
        ∀ d < row.length,
          (out.getD i []).getD d 0 = row.getD d 0 + randn i d * ns := by
  refine ⟨augmentTrainVecs (sliceTrainVecs vectors ts) (2 ^ nbits) ns randn,
    ?_, ?_, ?_⟩
  · unfold train_pq
    rw [if_pos hdiv, if_pos hscarce]
  · unfold augmentTrainVecs
    simp
  · intro i hi row
    have hgi : (augmentTrainVecs (sliceTrainVecs vectors ts) (2 ^ nbits)
        ns randn).getD i []
        = (List.range row.length).map
            (fun d => row.getD d 0 + randn i d * ns) := by
      unfold augmentTrainVecs
      rw [List.getD_eq_getElem _ _ (by simpa using hi), List.getElem_map,
        List.getElem_range]
    rw [hgi]
    constructor
    · simp
    · intro d hd
      rw [List.getD_eq_getElem _ _ (by simpa using hd), List.getElem_map,
        List.getElem_range]

theorem train_pq_augment_witness :
    2 % 1 = 0 ∧ (sliceTrainVecs [[(1:ℚ), 2]] none).length < 2 ^ 1 ∧
    ∃ out, train_pq [[(1:ℚ), 2]] 2 1 1 none (1/2) (fun i d => i + d)
        = some out ∧ out.length = 2 ^ 1 := by
  refine ⟨by decide, by decide, ?_⟩
  obtain ⟨out, h1, h2, _⟩ := train_pq_augment [[(1:ℚ), 2]] 2 1 1 none (1/2)
    (fun i d => i + d) (by decide) (by decide)
  exact ⟨out, h1, h2⟩

/-! ## C3 and C8: the approximate scorer -/

instance : IsTotal (Int × ℚ) (fun a b => a.2 ≤ b.2) :=
  ⟨fun a b => le_total a.2 b.2⟩

instance : IsTrans (Int × ℚ) (fun a b => a.2 ≤ b.2) :=
  ⟨fun _ _ _ h1 h2 => le_trans h1 h2⟩

/-- The `(id, approximate score)` pairs of all fetched rows. -/
def scoredRows (dist_table : List (List ℚ))
    (rows : List (Int × List Nat)) : List (Int × ℚ) :=
  rows.map fun r => (r.1, approxScore dist_table r.2)

/-- A left fold of additions over `List.range` is the indexed sum. -/
theorem foldl_add_range (g : Nat → ℚ) (n : Nat) :
    (List.range n).foldl (fun total j => total + g j) 0
      = ∑ j ∈ Finset.range n, g j := by
  induction n with
  | zero => simp
  | succ n ih =>
      rw [List.range_succ, List.foldl_append, Finset.sum_range_succ, ih]
      simp

/-- The scoring loop recomputed independently: the approximate score is
the sum over subspaces of the per-subspace table lookups. -/
theorem approxScore_eq_sum (dist_table : List (List ℚ))
    (code_vec : List Nat) :
    approxScore dist_table code_vec
      = ∑ j ∈ Finset.range dist_table.length,
          (dist_table.getD j []).getD (code_vec.getD j 0) 0 :=
  foldl_add_range _ _

/-- C3: `pq_search` assigns each row the score
`∑ j, dist_table[j][code[j]]` (equal to the independently recomputed
indexed sum), and returns the `min top_n (#rows)` lowest-scoring
entries as parallel id/score lists sorted ascending by score: the
returned pairs are a sub-permutation of the scored rows, the returned
scores together with some remainder `rest` are a permutation of all
scores with every returned score ≤ every score in `rest`, and when the
corpus size is ≤ `top_n` all entries are returned, fully sorted. -/
theorem pq_search_correct (dist_table : List (List ℚ))
    (rows : List (Int × List Nat)) (top_n : Nat) :
    (∀ code_vec : List Nat, approxScore dist_table code_vec
        = ∑ j ∈ Finset.range dist_table.length,
            (dist_table.getD j []).getD (code_vec.getD j 0) 0) ∧
    (pq_search dist_table rows top_n).1.length = min top_n rows.length ∧
    (pq_search dist_table rows top_n).2.length = min top_n rows.length ∧
    (pq_search dist_table rows top_n).2.Sorted (· ≤ ·) ∧
    ((pq_search dist_table rows top_n).1.zip
        (pq_search dist_table rows top_n).2).Subperm
      (scoredRows dist_table rows) ∧
    (∃ rest : List ℚ,
      ((pq_search dist_table rows top_n).2 ++ rest).Perm
          ((scoredRows dist_table rows).map Prod.snd) ∧
      ∀ x ∈ (pq_search dist_table rows top_n).2, ∀ y ∈ rest, x ≤ y) ∧
    (rows.length ≤ top_n →
      ((pq_search dist_table rows top_n).1.zip
          (pq_search dist_table rows top_n).2).Perm
        (scoredRows dist_table rows)) := by
  have hscored : (rows.map fun r => (r.1, approxScore dist_table r.2))
      = scoredRows dist_table rows := rfl
  set scored := scoredRows dist_table rows with hs
  set sorted := scored.insertionSort (fun a b => a.2 ≤ b.2) with hsort
  set n := min top_n rows.length with hn
  have hps : pq_search dist_table rows top_n
      = ((sorted.take n).map Prod.fst, (sorted.take n).map Prod.snd) := by
    unfold pq_search
    rw [hscored]
  have hperm : sorted.Perm scored := List.perm_insertionSort _ _
  have hsorted : sorted.Sorted (fun a b => a.2 ≤ b.2) :=
    List.sorted_insertionSort _ _
  have hslen : sorted.length = rows.length := by
    rw [List.length_insertionSort, hs, scoredRows, List.length_map]
  have hzip : ((sorted.take n).map Prod.fst).zip
      ((sorted.take n).map Prod.snd) = sorted.take n := by
    rw [List.zip_map']
    simp
  refine ⟨fun code_vec => approxScore_eq_sum dist_table code_vec,
    ?_, ?_, ?_, ?_, ?_, ?_⟩
  · rw [hps]
    simp only [List.length_map, List.length_take, hslen]
    omega
  · rw [hps]
    simp only [List.length_map, List.length_take, hslen]
    omega
  · rw [hps]
    exact List.pairwise_map.mpr
      (List.Pairwise.sublist (List.take_sublist n sorted) hsorted)
  · rw [hps]
    simp only
    rw [hzip]
    exact ((List.take_sublist n sorted).subperm).trans hperm.subperm
  · rw [hps]
    refine ⟨(sorted.drop n).map Prod.snd, ?_, ?_⟩
    · have : (sorted.take n).map Prod.snd ++ (sorted.drop n).map Prod.snd
          = sorted.map Prod.snd := by
        rw [← List.map_append, List.take_append_drop]
      simp only
      rw [this]
      exact hperm.map Prod.snd
    · simp only
      intro x hx y hy
      obtain ⟨p, hp, rfl⟩ := List.mem_map.mp hx
      obtain ⟨p2, hp2, rfl⟩ := List.mem_map.mp hy
      exact hsorted.rel_of_mem_take_of_mem_drop hp hp2
  · intro hle
    rw [hps]
    simp only
    rw [hzip]
    have htake : sorted.take n = sorted := by
      apply List.take_of_length_le
      omega
    rw [htake]
    exact hperm

theorem pq_search_correct_witness :
    ([(10:Int), 11, 12].length ≤ 10) ∧
      (((pq_search [[0, 1], [2, 3]]
          [(10, [0, 1]), (11, [1, 0]), (12, [1, 1])] 10).1.zip
        (pq_search [[0, 1], [2, 3]]
          [(10, [0, 1]), (11, [1, 0]), (12, [1, 1])] 10).2).Perm
        (scoredRows [[0, 1], [2, 3]]
          [(10, [0, 1]), (11, [1, 0]), (12, [1, 1])])) :=
  ⟨by decide,
    (pq_search_correct [[0, 1], [2, 3]]
      [(10, [0, 1]), (11, [1, 0]), (12, [1, 1])] 10).2.2.2.2.2.2
      (by decide)⟩

/-- C8: top-N selection is deterministic for fixed input: two runs of
`pq_search` on equal distance tables, equal stored-row sequences and
equal `top_n` produce identical outputs — the same candidate
identifiers with the same approximate distances in the same order —
even when some scores are tied.  (The source's
`np.argpartition`/`np.argsort` selection is a deterministic procedure
of its input buffer; in the pure model the output is a function of the
input alone, with no hidden state.) -/
theorem pq_search_deterministic (dt1 dt2 : List (List ℚ))
    (rows1 rows2 : List (Int × List Nat)) (n1 n2 : Nat)
    (hdt : dt1 = dt2) (hrows : rows1 = rows2) (hn : n1 = n2) :
    pq_search dt1 rows1 n1 = pq_search dt2 rows2 n2 := by
  rw [hdt, hrows, hn]

theorem pq_search_deterministic_witness :
    pq_search [[(0:ℚ), 1], [2, 3]] [(10, [0, 1]), (11, [1, 0])] 1
      = pq_search [[(0:ℚ), 1], [2, 3]] [(10, [0, 1]), (11, [1, 0])] 1 :=
  pq_search_deterministic [[(0:ℚ), 1], [2, 3]] [[(0:ℚ), 1], [2, 3]]
    [(10, [0, 1]), (11, [1, 0])] [(10, [0, 1]), (11, [1, 0])] 1 1
    rfl rfl rfl

/-! ## C4, C5, C10: the exact re-ranker -/

instance : IsTotal SearchResult (fun a b => a.distance ≤ b.distance) :=
  ⟨fun a b => le_total a.distance b.distance⟩

instance : IsTrans SearchResult (fun a b => a.distance ≤ b.distance) :=
  ⟨fun _ _ _ h1 h2 => le_trans h1 h2⟩

/-- Branch-free form of `post_verify`: the result is always the first
`final_k` of the distance-sorted scored fetch (for an empty candidate
list the fetch is empty, so both sides are `[]`). -/
theorem post_verify_eq (q : List ℚ) (cids : List Int) (db : List RawRow)
    (k : Nat) :
    post_verify q cids db k
      = (((db.filter fun r => decide (r.id ∈ cids)).map fun r =>
            (⟨r.id, r.word, r.sense_id, sqDist q r.vec⟩ : SearchResult)).insertionSort
          (fun a b => a.distance ≤ b.distance)).take k := by
  unfold post_verify
  by_cases h : cids = []
  · subst h
    simp
  · rw [if_neg h]

/-- C5: `post_verify` scores each fetched candidate by the exact
squared Euclidean distance to the query (equal to the independently
recomputed indexed sum), sorts ascending by that distance and returns
the first `final_k` — the `final_k` lowest distances: the returned
distances together with some remainder `rest` are a permutation of all
fetched distances, with every returned distance ≤ every distance in
`rest`; an empty candidate set yields an empty result (not an error);
at most `final_k` results and at most one result per candidate are
returned (so with `#fetched ≤ final_k`, e.g. `final_k > top_n ≥
#candidates`, all fetched candidates are returned, fully sorted). -/
theorem post_verify_correct (q : List ℚ) (cids : List Int)
    (db : List RawRow) (k : Nat) (hnodup : (db.map RawRow.id).Nodup) :
    (cids = [] → post_verify q cids db k = []) ∧
    ((post_verify q cids db k).map SearchResult.distance).Sorted (· ≤ ·) ∧
    (post_verify q cids db k).length
      = min k (db.filter fun r => decide (r.id ∈ cids)).length ∧
    (post_verify q cids db k).length ≤ cids.length ∧
    (post_verify q cids db k).length ≤ k ∧
    (∀ res ∈ post_verify q cids db k, ∃ row ∈ db, row.id ∈ cids ∧
      res = ⟨row.id, row.word, row.sense_id, sqDist q row.vec⟩) ∧
    (∀ v : List ℚ, v.length = q.length → sqDist q v
      = ∑ d ∈ Finset.range q.length, (q.getD d 0 - v.getD d 0) ^ 2) ∧
    ((db.filter fun r => decide (r.id ∈ cids)).length ≤ k →
      (post_verify q cids db k).Perm
        ((db.filter fun r => decide (r.id ∈ cids)).map
          fun r => ⟨r.id, r.word, r.sense_id, sqDist q r.vec⟩)) ∧
    (∃ rest : List ℚ,
      (((post_verify q cids db k).map SearchResult.distance) ++ rest).Perm
        ((db.filter fun r => decide (r.id ∈ cids)).map
          fun r => sqDist q r.vec) ∧
      ∀ x ∈ (post_verify q cids db k).map SearchResult.distance,
        ∀ y ∈ rest, x ≤ y) := by
  set fetched := db.filter fun r => decide (r.id ∈ cids) with hf
  set results := fetched.map fun r =>
    (⟨r.id, r.word, r.sense_id, sqDist q r.vec⟩ : SearchResult) with hres
  set sorted := results.insertionSort
    (fun a b => a.distance ≤ b.distance) with hsort
  have hpv : post_verify q cids db k = sorted.take k := post_verify_eq q cids db k
  have hperm : sorted.Perm results := List.perm_insertionSort _ _
  have hsorted : sorted.Sorted (fun a b => a.distance ≤ b.distance) :=
    List.sorted_insertionSort _ _
  have hslen : sorted.length = fetched.length := by
    rw [List.length_insertionSort, hres, List.length_map]
  have hfle : fetched.length ≤ cids.length := by
    have hids : (fetched.map RawRow.id).Nodup :=
      List.Nodup.sublist (List.Sublist.map _ (List.filter_sublist db)) hnodup
    have hsub : fetched.map RawRow.id ⊆ cids := by
      intro x hx
      obtain ⟨r, hr, rfl⟩ := List.mem_map.mp hx
      exact of_decide_eq_true (List.mem_filter.mp hr).2
    calc fetched.length = (fetched.map RawRow.id).length :=
          (List.length_map _ _).symm
      _ ≤ cids.length := (hids.subperm hsub).length_le
  refine ⟨?_, ?_, ?_, ?_, ?_, ?_, ?_, ?_, ?_⟩
  · intro h
    unfold post_verify
    rw [if_pos h]
  · rw [hpv]
    exact List.pairwise_map.mpr
      (List.Pairwise.sublist (List.take_sublist k sorted) hsorted)
  · rw [hpv, List.length_take, hslen]
  · rw [hpv, List.length_take, hslen]
    omega
  · rw [hpv, List.length_take]
    omega
  · intro res hresmem
    rw [hpv] at hresmem
    have h1 : res ∈ sorted :=
      (List.take_sublist k sorted).subset hresmem
    have h2 : res ∈ results := hperm.mem_iff.mp h1
    obtain ⟨r, hr, rfl⟩ := List.mem_map.mp h2
    exact ⟨r, (List.mem_filter.mp hr).1,
      of_decide_eq_true (List.mem_filter.mp hr).2, rfl⟩
  · intro v hv
    exact sqDist_eq_sum q v hv
  · intro hk
    rw [hpv, List.take_of_length_le (by omega)]
    exact hperm
  · refine ⟨(sorted.drop k).map SearchResult.distance, ?_, ?_⟩
    · rw [hpv]
      have happ : (sorted.take k).map SearchResult.distance
          ++ (sorted.drop k).map SearchResult.distance
          = sorted.map SearchResult.distance := by
        rw [← List.map_append, List.take_append_drop]
      rw [happ]
      have hdists : results.map SearchResult.distance
          = fetched.map fun r => sqDist q r.vec := by
        rw [hres, List.map_map]
        rfl
      rw [← hdists]
      exact hperm.map SearchResult.distance
    · rw [hpv]
      intro x hx y hy
      obtain ⟨p, hp, rfl⟩ := List.mem_map.mp hx
      obtain ⟨p2, hp2, rfl⟩ := List.mem_map.mp hy
      exact hsorted.rel_of_mem_take_of_mem_drop hp hp2

theorem post_verify_correct_witness :
    (([⟨1, "a", 0, [(1:ℚ), 0]⟩, ⟨3, "c", 0, [0, 0]⟩] : List RawRow).map
        RawRow.id).Nodup ∧
    ((post_verify [(0:ℚ), 0] [1, 3]
        [⟨1, "a", 0, [(1:ℚ), 0]⟩, ⟨3, "c", 0, [0, 0]⟩] 1).map
      SearchResult.distance).Sorted (· ≤ ·) ∧
    (post_verify [(0:ℚ), 0] [1, 3]
        [⟨1, "a", 0, [(1:ℚ), 0]⟩, ⟨3, "c", 0, [0, 0]⟩] 1).length ≤ 1 := by
  have h := post_verify_correct [(0:ℚ), 0] [1, 3]
    [⟨1, "a", 0, [(1:ℚ), 0]⟩, ⟨3, "c", 0, [0, 0]⟩] 1 (by decide)
  exact ⟨by decide, h.2.1, h.2.2.2.2.1⟩

/-- C10: the identifiers in `post_verify`'s output are always a subset
of the input `candidate_ids`: exact re-ranking never introduces a
result whose identifier was not in the candidate set. -/
theorem post_verify_ids_subset (q : List ℚ) (cids : List Int)
    (db : List RawRow) (k : Nat) :
    ∀ res ∈ post_verify q cids db k, res.id ∈ cids := by
  intro res hres
  rw [post_verify_eq] at hres
  have h1 := (List.take_sublist k _).subset hres
  have h2 := (List.perm_insertionSort
    (fun a b : SearchResult => a.distance ≤ b.distance) _).mem_iff.mp h1
  obtain ⟨r, hr, rfl⟩ := List.mem_map.mp h2
  exact of_decide_eq_true (List.mem_filter.mp hr).2

theorem post_verify_ids_subset_witness :
    ((⟨3, "c", 0, (0:ℚ)⟩ : SearchResult) ∈ post_verify [(0:ℚ), 0] [1, 3]
      [⟨1, "a", 0, [(1:ℚ), 0]⟩, ⟨3, "c", 0, [0, 0]⟩] 10) ∧
    ((3:Int) ∈ [(1:Int), 3]) := by
  have heq : post_verify [(0:ℚ), 0] [1, 3]
      [⟨1, "a", 0, [(1:ℚ), 0]⟩, ⟨3, "c", 0, [0, 0]⟩] 10
      = [⟨3, "c", 0, 0⟩, ⟨1, "a", 0, 1⟩] := by
    norm_num [post_verify, sqDist, List.insertionSort, List.orderedInsert,
      List.filter]
    exact fun h => absurd h (by decide)
  have hmem : (⟨3, "c", 0, (0:ℚ)⟩ : SearchResult) ∈ post_verify [(0:ℚ), 0]
      [1, 3] [⟨1, "a", 0, [(1:ℚ), 0]⟩, ⟨3, "c", 0, [0, 0]⟩] 10 := by
    rw [heq]
    exact List.mem_cons_self _ _
  exact ⟨hmem, post_verify_ids_subset [(0:ℚ), 0] [1, 3]
    [⟨1, "a", 0, [(1:ℚ), 0]⟩, ⟨3, "c", 0, [0, 0]⟩] 10 _ hmem⟩

/-- The claim that a candidate identifier missing from the raw-vector
source fails the whole query is false on the code: `post_verify` just
scores whatever rows the `WHERE id IN (...)` fetch returned.  Here
candidate `2` is not in the raw table, yet the query succeeds with a
normal (non-empty) result that silently omits it. -/
theorem post_verify_missing_cex :
    post_verify [(0:ℚ), 0] [1, 2] [⟨1, "a", 0, [(0:ℚ), 0]⟩] 10
      = [⟨1, "a", 0, 0⟩] ∧
    (2:Int) ∈ [(1:Int), 2] ∧
    (2:Int) ∉ (post_verify [(0:ℚ), 0] [1, 2] [⟨1, "a", 0, [(0:ℚ), 0]⟩]
      10).map SearchResult.id := by
  have heq : post_verify [(0:ℚ), 0] [1, 2] [⟨1, "a", 0, [(0:ℚ), 0]⟩] 10
      = [⟨1, "a", 0, 0⟩] := by
    norm_num [post_verify, sqDist, List.insertionSort, List.orderedInsert,
      List.filter]
    decide
  refine ⟨heq, by decide, ?_⟩
  rw [heq]
  decide

/-- C4 (amended): `post_verify` does not detect partial fetches: a
candidate identifier absent from the raw-vector source is silently
dropped — the output is exactly what the remaining candidates produce,
the query does not fail, and the missing identifier never appears in
the result. -/
theorem post_verify_drops_missing (q : List ℚ) (cids : List Int)
    (db : List RawRow) (k : Nat) (c : Int)
    (hc : c ∉ db.map RawRow.id) :
    post_verify q cids db k
      = post_verify q (cids.filter fun x => decide (x ≠ c)) db k ∧
    c ∉ (post_verify q cids db k).map SearchResult.id := by
  have hnotid : ∀ r ∈ db, r.id ≠ c := by
    intro r hr hrc
    exact hc (List.mem_map.mpr ⟨r, hr, hrc⟩)
  constructor
  · rw [post_verify_eq, post_verify_eq]
    have hfeq : (db.filter fun r => decide (r.id ∈ cids))
        = db.filter fun r =>
            decide (r.id ∈ cids.filter fun x => decide (x ≠ c)) := by
      apply List.filter_congr
      intro r hr
      have hne : r.id ≠ c := hnotid r hr
      by_cases hin : r.id ∈ cids
      · simp [hin, List.mem_filter, hne]
      · simp [hin, List.mem_filter]
    rw [hfeq]
  · intro hmem
    obtain ⟨res, hres, hid⟩ := List.mem_map.mp hmem
    rw [post_verify_eq] at hres
    have h1 := (List.take_sublist k _).subset hres
    have h2 := (List.perm_insertionSort
      (fun a b : SearchResult => a.distance ≤ b.distance) _).mem_iff.mp h1
    obtain ⟨r, hr, rfl⟩ := List.mem_map.mp h2
    exact hnotid r (List.mem_filter.mp hr).1 hid

theorem post_verify_drops_missing_witness :
    ((2:Int) ∉ ([⟨1, "a", 0, [(0:ℚ), 0]⟩] : List RawRow).map RawRow.id) ∧
    post_verify [(0:ℚ), 0] [1, 2] [⟨1, "a", 0, [(0:ℚ), 0]⟩] 10
      = post_verify [(0:ℚ), 0] ([1, 2].filter fun x => decide (x ≠ 2))
          [⟨1, "a", 0, [(0:ℚ), 0]⟩] 10 :=
  ⟨by decide, (post_verify_drops_missing [(0:ℚ), 0] [1, 2]
    [⟨1, "a", 0, [(0:ℚ), 0]⟩] 10 2 (by decide)).1⟩
